import Mathlib

/-!
Shallow embedding of `src/parser.rs` (the front-end parser of a tiny
scripting language).  The Rust parser owns a `VecDeque<LexerToken>` and pops
tokens from the front; we model the cursor as an explicit `List LexerToken`
threaded through every operation.  Rust panics become `Except.error` values.
The external expression translator (`AstExpr::evaluate`) is modelled as a
total function parameter, and the statement dispatcher's unbounded loop is
modelled with a fuel parameter (a dedicated `OutOfFuel` error marks fuel
exhaustion; the termination theorem shows `length + 1` fuel never hits it).
-/

/-- Modelled from the spec: the lexer and its token type live in
`src/lexer.rs`, which is not part of this repository snapshot.  §3 of the
spec describes the token type as a closed variant set `Keyword(text)`,
`Identifier(text)`, `Operator(text)`, `Symbol(char)`, `EndOfInput` (called
`Eof` by the parser code) with structural equality. -/
inductive LexerToken where
  | Keyword (s : String)
  | Identifier (s : String)
  | Operator (s : String)
  | Symbol (c : Char)
  | Eof
deriving DecidableEq, Repr

/-- Modelled from the spec: the value representation (`src/value.rs`) is an
external collaborator; the spec only needs literal values such as `2`, so we
model values as integers. -/
abbrev Value := Int

/-- `ParserToken` from `src/parser.rs` lines 12-22: the IR instruction set. -/
inductive ParserToken where
  | DeclareVariable (name : String)
  | DeclareFunction (name : String) (body : List ParserToken)
  | GetVariable (name : String)
  | Operation (op : String)
  | Push (v : Value)
  | Pop
  | Call (name : String) (argc : Nat)
  | Ret
deriving Repr

/-- The Rust code aborts by panicking; each `Except.error` value below stands
for one panic site of `src/parser.rs`. -/
inductive ParseError where
  /-- line 36: `self.peek().expect("Unexpted end of file")`. -/
  | UnexpectedEof
  /-- line 160: `eat_expr` ran out of tokens before any terminator. -/
  | UnexpectedEofExpecting (terms : List LexerToken)
  /-- line 190: `eat_expect` ran out of tokens. -/
  | UnexpectedEofExpected (tok : LexerToken)
  /-- line 194: `eat_expect` saw a different token than required. -/
  | UnexpectedToken (expected got : LexerToken)
  /-- line 49: a keyword other than `let` / `fn` in statement position. -/
  | UnimplementedKeyword (kw : String)
  /-- lines 54, 121, 127: `panic!("Syntax error")` (also the
  `.expect("Syntax error")` on the token following an identifier). -/
  | SyntaxError
  /-- lines 76/93 and 102/138: missing identifier after `let` / `fn`. -/
  | ExpectedIdentifierAfterKeyword (kw : String)
  /-- lines 110/114: `.expect("Invalid function decleration")`. -/
  | InvalidFunctionDecleration
  /-- artifact of the fuel-based embedding of the dispatcher loop; no code
  path of the Rust program corresponds to it. -/
  | OutOfFuel
deriving DecidableEq, Repr

/-- The external expression translator `AstExpr::evaluate` (`src/expr.rs`),
an opaque collaborator: raw tokens in, instructions out. -/
abbrev Translator := List LexerToken → List ParserToken

/-- `Parser::eat_expect` (lines 187-197): consume one token, fail if it is
absent or different. -/
def eat_expect (expected : LexerToken) :
    List LexerToken → Except ParseError (LexerToken × List LexerToken)
  | [] => .error (.UnexpectedEofExpected expected)
  | t :: ts => if t = expected then .ok (t, ts) else .error (.UnexpectedToken expected t)

/-- `Parser::eat_expr` (lines 155-170): accumulate raw tokens until one of
the terminators is peeked; the terminator is not consumed.  Returns the
accumulated tokens together with the remaining stream. -/
def eat_expr (terminator : List LexerToken) :
    List LexerToken → Except ParseError (List LexerToken × List LexerToken)
  | [] => .error (.UnexpectedEofExpecting terminator)
  | t :: ts =>
    if t ∈ terminator then .ok ([], t :: ts)
    else
      match eat_expr terminator ts with
      | .ok (e, rest) => .ok (t :: e, rest)
      | .error err => .error err

/-- The `'args` loop of `Parser::function_decleration` (lines 109-129):
collect parameter names, branching on `,` vs `)` after each name. -/
def fn_args_loop :
    List LexerToken → Except ParseError (List String × List LexerToken)
  | [] => .error .InvalidFunctionDecleration
  | tk :: rest =>
    match tk with
    | .Identifier arg =>
      match rest with
      | [] => .error .InvalidFunctionDecleration
      | pk :: rest2 =>
        if pk = .Symbol ',' then
          match fn_args_loop rest2 with
          | .ok (args, r) => .ok (arg :: args, r)
          | .error err => .error err
        else if pk = .Operator ")" then .ok ([arg], rest2)
        else .error .SyntaxError
    | _ =>
      if tk = .Operator ")" then .ok ([], rest)
      else .error .SyntaxError

/-- `Parser::variable_decleration` (lines 69-94): `let Identifier = Expr ;`.
The first token (the already-peeked `let` keyword) is dropped unchecked,
mirroring the discarded `self.eat()` of line 73. -/
def variable_decleration (tr : Translator) (input : List LexerToken) :
    Except ParseError (List ParserToken × List LexerToken) :=
  match input.tail with
  | [] => .error (.ExpectedIdentifierAfterKeyword "let")
  | tk1 :: r1 =>
    match tk1 with
    | .Identifier id =>
      match eat_expect (.Symbol '=') r1 with
      | .error err => .error err
      | .ok (_, r2) =>
        match eat_expr [.Symbol ';'] r2 with
        | .error err => .error err
        | .ok (expr, r3) =>
          match eat_expect (.Symbol ';') r3 with
          | .error err => .error err
          | .ok (_, r4) => .ok (tr expr ++ [.DeclareVariable id], r4)
    | _ => .error (.ExpectedIdentifierAfterKeyword "let")

/-- `Parser::function_call` (lines 142-147): expects `)` then `;` and emits
a zero-argument `Call`. -/
def function_call (fn_name : String) (input : List LexerToken) :
    Except ParseError (List ParserToken × List LexerToken) :=
  match eat_expect (.Operator ")") input with
  | .error err => .error err
  | .ok (_, r1) =>
    match eat_expect (.Symbol ';') r1 with
    | .error err => .error err
    | .ok (_, r2) => .ok ([.Call fn_name 0], r2)

/-- `Parser::function_decleration` (lines 97-139), abstracted over the
recursive block parse of line 132 (`blockParse` stands for
`parse_until tr fuel (.Symbol '}') []`, supplied by `function_decleration`
and by the dispatcher's `fn` branch):
`fn Identifier ( params ) { Block }`, emitting a single `DeclareFunction`
whose body is the block parse's result.  The first token (the already-peeked
`fn` keyword) is dropped unchecked, mirroring the discarded `self.eat()` of
line 99. -/
def function_decleration_go
    (blockParse : List LexerToken → Except ParseError (List ParserToken × List LexerToken))
    (input : List LexerToken) :
    Except ParseError (List ParserToken × List LexerToken) :=
  match input.tail with
  | [] => .error (.ExpectedIdentifierAfterKeyword "fn")
  | tk1 :: r1 =>
    match tk1 with
    | .Identifier fn_name =>
      match eat_expect (.Operator "(") r1 with
      | .error err => .error err
      | .ok (_, r2) =>
        match fn_args_loop r2 with
        | .error err => .error err
        | .ok (_, r3) =>
          match eat_expect (.Symbol '{') r3 with
          | .error err => .error err
          | .ok (_, r4) =>
            match blockParse r4 with
            | .error err => .error err
            | .ok (body, r5) =>
              match eat_expect (.Symbol '}') r5 with
              | .error err => .error err
              | .ok (_, r6) => .ok ([.DeclareFunction fn_name body], r6)
    | _ => .error (.ExpectedIdentifierAfterKeyword "fn")

/-- `Parser::parse_until` (lines 33-66), the statement dispatcher.  `acc` is
the local `tokens` vector being accumulated across loop iterations; `tk` the
parameterized terminator. -/
def parse_until (tr : Translator) :
    Nat → LexerToken → List ParserToken → List LexerToken →
    Except ParseError (List ParserToken × List LexerToken)
  | 0, _, _, _ => .error .OutOfFuel
  | _ + 1, _, _, [] => .error .UnexpectedEof
  | fuel + 1, tk, acc, token :: rest0 =>
    if token = tk then .ok (acc, token :: rest0)
    else
      match token with
      | .Keyword kw =>
        if kw = "let" then
          match variable_decleration tr (token :: rest0) with
          | .ok (ts, rest) => parse_until tr fuel tk (acc ++ ts) rest
          | .error err => .error err
        else if kw = "fn" then
          match function_decleration_go
              (fun i => parse_until tr fuel (.Symbol '}') [] i) (token :: rest0) with
          | .ok (ts, rest) => parse_until tr fuel tk (acc ++ ts) rest
          | .error err => .error err
        else .error (.UnimplementedKeyword kw)
      | .Identifier fn_name =>
        match rest0 with
        | [] => .error .SyntaxError
        | next :: rest =>
          if next = .Operator "(" then
            match function_call fn_name rest with
            | .ok (ts, rest2) => parse_until tr fuel tk (acc ++ ts) rest2
            | .error err => .error err
          else parse_until tr fuel tk acc rest
      | _ =>
        match eat_expr [.Symbol ';'] (token :: rest0) with
        | .ok (e, r) => .ok (tr e, r)
        | .error err => .error err

/-- `Parser::function_decleration` (lines 97-139): the block parse of
line 132 is the recursive dispatcher call with terminator `}`. -/
def function_decleration (tr : Translator) (fuel : Nat) (input : List LexerToken) :
    Except ParseError (List ParserToken × List LexerToken) :=
  function_decleration_go (parse_until tr fuel (.Symbol '}') []) input

/-- `Parser::parse` (lines 25-28): run the dispatcher with terminator `Eof`.
The fuel `tokens.length + 1` is always sufficient (see the termination
theorem). -/
def parse (tr : Translator) (tokens : List LexerToken) :
    Except ParseError (List ParserToken) :=
  (parse_until tr (tokens.length + 1) .Eof [] tokens).map Prod.fst

/-- The dispatcher's `fn` branch is exactly the standalone handler
`function_decleration` followed by the loop continuation. -/
theorem parse_until_keyword_fn (tr : Translator) (fuel : Nat) (tk : LexerToken)
    (acc : List ParserToken) (rest0 : List LexerToken) (hne : LexerToken.Keyword "fn" ≠ tk) :
    parse_until tr (fuel + 1) tk acc (.Keyword "fn" :: rest0) =
      match function_decleration tr fuel (.Keyword "fn" :: rest0) with
      | .ok (ts, rest) => parse_until tr fuel tk (acc ++ ts) rest
      | .error err => .error err := by
  rw [parse_until, if_neg hne]
  rw [if_neg (by decide : ¬("fn" = "let")), if_pos rfl]
  rfl

/-! ### Lemmas about the token cursor primitives -/

theorem eat_expect_ok {expected t : LexerToken} {input rest : List LexerToken}
    (h : eat_expect expected input = .ok (t, rest)) :
    input = expected :: rest ∧ t = expected := by
  cases input with
  | nil => simp [eat_expect] at h
  | cons a as =>
    by_cases ha : a = expected
    · subst ha
      simp [eat_expect] at h
      exact ⟨by rw [h.2], h.1.symm⟩
    · simp [eat_expect, ha] at h

theorem eat_expect_not_oof {expected : LexerToken} {input : List LexerToken} :
    eat_expect expected input ≠ .error .OutOfFuel := by
  cases input with
  | nil => simp [eat_expect]
  | cons a as =>
    by_cases ha : a = expected <;> simp [eat_expect, ha]

/-- Soundness of the expression extractor: on success the returned tokens
are terminator-free, they are exactly the consumed prefix of the stream in
order, and the unconsumed terminator sits at the head of the remainder. -/
theorem eat_expr_ok {terminator : List LexerToken} :
    ∀ {input e rest : List LexerToken},
    eat_expr terminator input = .ok (e, rest) →
    input = e ++ rest ∧ (∀ t ∈ e, t ∉ terminator) ∧
      ∃ t ts, rest = t :: ts ∧ t ∈ terminator := by
  intro input
  induction input with
  | nil => intro e rest h; simp [eat_expr] at h
  | cons a as ih =>
    intro e rest h
    by_cases ha : a ∈ terminator
    · simp [eat_expr, ha] at h
      obtain ⟨he, hrest⟩ := h
      subst he
      exact ⟨by simp [hrest], by simp, a, as, hrest.symm, ha⟩
    · simp only [eat_expr, if_neg ha] at h
      cases hrec : eat_expr terminator as with
      | error err => rw [hrec] at h; simp at h
      | ok p =>
        obtain ⟨e0, rest0⟩ := p
        rw [hrec] at h
        simp at h
        obtain ⟨he, hrest⟩ := h
        obtain ⟨hpre, hfree, t, ts, hr, ht⟩ := ih hrec
        subst he hrest
        refine ⟨by simp [hpre], ?_, t, ts, hr, ht⟩
        intro x hx
        rcases List.mem_cons.mp hx with rfl | hx
        · exact ha
        · exact hfree x hx

/-- If no token of the stream belongs to the terminator set, extraction
fails with the end-of-input error. -/
theorem eat_expr_eof {terminator : List LexerToken} :
    ∀ {input : List LexerToken}, (∀ t ∈ input, t ∉ terminator) →
    eat_expr terminator input = .error (.UnexpectedEofExpecting terminator) := by
  intro input
  induction input with
  | nil => intro _; simp [eat_expr]
  | cons a as ih =>
    intro h
    have ha : a ∉ terminator := h a (by simp)
    rw [eat_expr, if_neg ha, ih (fun t ht => h t (by simp [ht]))]

/-- Completeness of the extractor on a decomposed stream: a terminator-free
prefix followed by a terminator is returned exactly, terminator unconsumed. -/
theorem eat_expr_complete {terminator : List LexerToken} :
    ∀ {e : List LexerToken} {t : LexerToken} {rest : List LexerToken},
    (∀ x ∈ e, x ∉ terminator) → t ∈ terminator →
    eat_expr terminator (e ++ t :: rest) = .ok (e, t :: rest) := by
  intro e
  induction e with
  | nil => intro t rest _ ht; simp [eat_expr, ht]
  | cons a as ih =>
    intro t rest hfree ht
    have ha : a ∉ terminator := hfree a (by simp)
    rw [List.cons_append, eat_expr, if_neg ha,
      ih (fun x hx => hfree x (by simp [hx])) ht]

theorem eat_expr_not_oof {terminator : List LexerToken} :
    ∀ {input : List LexerToken}, eat_expr terminator input ≠ .error .OutOfFuel := by
  intro input
  induction input with
  | nil => simp [eat_expr]
  | cons a as ih =>
    by_cases ha : a ∈ terminator
    · simp [eat_expr, ha]
    · rw [eat_expr, if_neg ha]
      cases hrec : eat_expr terminator as with
      | error err =>
        intro hcon
        simp at hcon
        rw [hrec] at ih
        simp at ih
        exact ih (hcon ▸ rfl)
      | ok p => simp


/-! ### Lemmas about the handlers -/

theorem fn_args_loop_len (input : List LexerToken) :
    ∀ {args : List String} {rest : List LexerToken},
    fn_args_loop input = .ok (args, rest) → rest.length < input.length := by
  induction input using fn_args_loop.induct with
  | case1 => intro args rest h; simp [fn_args_loop] at h
  | case2 arg => intro args rest h; simp [fn_args_loop] at h
  | case3 arg ts args0 r0 hok ih =>
    intro args rest h
    rw [fn_args_loop] at h
    simp [hok] at h
    have := ih hok
    simp [← h.2]
    omega
  | case4 arg ts err herr ih =>
    intro args rest h
    rw [fn_args_loop] at h
    simp [herr] at h
  | case5 arg ts hne =>
    intro args rest h
    rw [fn_args_loop] at h
    simp at h
    simp [← h.2]
    omega
  | case6 arg t ts hne1 hne2 =>
    intro args rest h
    rw [fn_args_loop] at h
    simp [hne1, hne2] at h
  | case7 ts hni =>
    intro args rest h
    simp [fn_args_loop] at h
    simp [← h.2]
  | case8 t ts hne hni =>
    intro args rest h
    cases t with
    | Identifier a => exact absurd rfl (hni a)
    | _ => simp [fn_args_loop, hne] at h

theorem fn_args_loop_not_oof (input : List LexerToken) :
    fn_args_loop input ≠ .error .OutOfFuel := by
  induction input using fn_args_loop.induct with
  | case1 => simp [fn_args_loop]
  | case2 arg => simp [fn_args_loop]
  | case3 arg ts args0 r0 hok ih => rw [fn_args_loop]; simp [hok]
  | case4 arg ts err herr ih =>
    rw [fn_args_loop]
    simp [herr]
    intro hcon
    rw [hcon] at herr
    exact ih herr
  | case5 arg ts hne => rw [fn_args_loop]; simp
  | case6 arg t ts hne1 hne2 => rw [fn_args_loop]; simp [hne1, hne2]
  | case7 ts hni => simp [fn_args_loop]
  | case8 t ts hne hni =>
    cases t with
    | Identifier a => exact absurd rfl (hni a)
    | _ => simp [fn_args_loop, hne]

/-- Token form of a comma-separated parameter-name list (no trailing comma),
as in the spec grammar `(Identifier ("," Identifier)*)?`. -/
def paramToks : List String → List LexerToken
  | [] => []
  | a :: rest => .Identifier a :: rest.flatMap (fun b => [.Symbol ',', .Identifier b])

/-- Token form of a parameter-name list in which every name is followed by a
comma — its last comma is a trailing comma. -/
def paramToksTC (args : List String) : List LexerToken :=
  args.flatMap (fun a => [.Identifier a, .Symbol ','])

/-- The parameter loop accepts exactly the comma-separated encoding and
returns the names in order, consuming the closing parenthesis. -/
theorem fn_args_loop_paramToks (args : List String) (rest : List LexerToken) :
    fn_args_loop (paramToks args ++ .Operator ")" :: rest) = .ok (args, rest) := by
  induction args with
  | nil => simp [paramToks, fn_args_loop]
  | cons a t ih =>
    cases t with
    | nil => simp [paramToks, fn_args_loop]
    | cons b t2 =>
      rw [paramToks] at ih ⊢
      simp only [List.flatMap_cons, List.cons_append, List.nil_append,
        List.append_assoc] at ih ⊢
      rw [fn_args_loop]
      simp [ih]

/-- The parameter loop also accepts the full trailing-comma encoding: a `,`
immediately followed by `)` ends the list successfully. -/
theorem fn_args_loop_paramToksTC (args : List String) (rest : List LexerToken) :
    fn_args_loop (paramToksTC args ++ .Operator ")" :: rest) = .ok (args, rest) := by
  induction args with
  | nil => simp [paramToksTC, fn_args_loop]
  | cons a t ih =>
    simp only [paramToksTC, List.flatMap_cons, List.cons_append,
      List.nil_append, List.append_assoc] at ih ⊢
    rw [fn_args_loop]
    simp [ih]

/-- Successful run of the variable declaration handler on a well-formed
`let Identifier = Expr ;` statement: the translator's output is followed by
exactly one `DeclareVariable` and the trailing `;` is consumed. -/
theorem variable_decleration_eq (tr : Translator) (x : String)
    (expr rest : List LexerToken) (hfree : ∀ t ∈ expr, t ≠ .Symbol ';') :
    variable_decleration tr
        (.Keyword "let" :: .Identifier x :: .Symbol '=' :: (expr ++ .Symbol ';' :: rest)) =
      .ok (tr expr ++ [.DeclareVariable x], rest) := by
  have hx : eat_expr [.Symbol ';'] (expr ++ .Symbol ';' :: rest) = .ok (expr, .Symbol ';' :: rest) :=
    eat_expr_complete (by simpa using hfree) (by simp)
  simp [variable_decleration, eat_expect, hx]

theorem variable_decleration_len {tr : Translator} {input : List LexerToken}
    {ts : List ParserToken} {rest : List LexerToken}
    (h : variable_decleration tr input = .ok (ts, rest)) :
    rest.length < input.length := by
  cases input with
  | nil => simp [variable_decleration] at h
  | cons a as =>
    cases as with
    | nil => simp [variable_decleration] at h
    | cons tk1 r1 =>
      cases tk1 with
      | Identifier id =>
        simp only [variable_decleration, List.tail_cons] at h
        cases h1 : eat_expect (.Symbol '=') r1 with
        | error err => rw [h1] at h; simp at h
        | ok p1 =>
          obtain ⟨t1, r2⟩ := p1
          rw [h1] at h
          dsimp only at h
          obtain ⟨hr1, -⟩ := eat_expect_ok h1
          cases h2 : eat_expr [.Symbol ';'] r2 with
          | error err => rw [h2] at h; simp at h
          | ok p2 =>
            obtain ⟨expr, r3⟩ := p2
            rw [h2] at h
            dsimp only at h
            obtain ⟨hr2, -, -⟩ := eat_expr_ok h2
            cases h3 : eat_expect (.Symbol ';') r3 with
            | error err => rw [h3] at h; simp at h
            | ok p3 =>
              obtain ⟨t3, r4⟩ := p3
              rw [h3] at h
              dsimp only at h
              obtain ⟨hr3, -⟩ := eat_expect_ok h3
              simp at h
              subst hr1 hr2 hr3
              rw [← h.2]
              simp
              omega
      | _ => simp [variable_decleration] at h

theorem variable_decleration_not_oof {tr : Translator} {input : List LexerToken} :
    variable_decleration tr input ≠ .error .OutOfFuel := by
  cases input with
  | nil => simp [variable_decleration]
  | cons a as =>
    cases as with
    | nil => simp [variable_decleration]
    | cons tk1 r1 =>
      cases tk1 with
      | Identifier id =>
        simp only [variable_decleration, List.tail_cons]
        cases h1 : eat_expect (.Symbol '=') r1 with
        | error err =>
          dsimp only
          intro hcon
          simp at hcon
          rw [hcon] at h1
          exact eat_expect_not_oof h1
        | ok p1 =>
          obtain ⟨t1, r2⟩ := p1
          dsimp only
          cases h2 : eat_expr [.Symbol ';'] r2 with
          | error err =>
            dsimp only
            intro hcon
            simp at hcon
            rw [hcon] at h2
            exact eat_expr_not_oof h2
          | ok p2 =>
            obtain ⟨expr, r3⟩ := p2
            dsimp only
            cases h3 : eat_expect (.Symbol ';') r3 with
            | error err =>
              dsimp only
              intro hcon
              simp at hcon
              rw [hcon] at h3
              exact eat_expect_not_oof h3
            | ok p3 =>
              obtain ⟨t3, r4⟩ := p3
              simp
      | _ => simp [variable_decleration]

/-- Complete case analysis of the call handler: it succeeds exactly on a
`)` `;` prefix, emitting `Call(name, 0)`, and otherwise fails with an
unexpected-token or end-of-input error. -/
theorem function_call_cases (fn_name : String) (input : List LexerToken) :
    (∃ rest, input = .Operator ")" :: .Symbol ';' :: rest ∧
      function_call fn_name input = .ok ([.Call fn_name 0], rest)) ∨
    (∃ err, function_call fn_name input = .error err ∧
      ((∃ e g, err = .UnexpectedToken e g) ∨ ∃ e, err = .UnexpectedEofExpected e)) := by
  cases input with
  | nil =>
    right
    refine ⟨.UnexpectedEofExpected (.Operator ")"), ?_, Or.inr ⟨_, rfl⟩⟩
    simp [function_call, eat_expect]
  | cons a as =>
    by_cases ha : a = .Operator ")"
    · subst ha
      cases as with
      | nil =>
        right
        refine ⟨.UnexpectedEofExpected (.Symbol ';'), ?_, Or.inr ⟨_, rfl⟩⟩
        simp [function_call, eat_expect]
      | cons b bs =>
        by_cases hb : b = .Symbol ';'
        · subst hb
          left
          exact ⟨bs, rfl, by simp [function_call, eat_expect]⟩
        · right
          refine ⟨.UnexpectedToken (.Symbol ';') b, ?_, Or.inl ⟨_, _, rfl⟩⟩
          simp [function_call, eat_expect, hb]
    · right
      refine ⟨.UnexpectedToken (.Operator ")") a, ?_, Or.inl ⟨_, _, rfl⟩⟩
      simp [function_call, eat_expect, ha]

theorem function_call_ok {fn_name : String} {input : List LexerToken}
    {ts : List ParserToken} {rest : List LexerToken}
    (h : function_call fn_name input = .ok (ts, rest)) :
    input = .Operator ")" :: .Symbol ';' :: rest ∧ ts = [.Call fn_name 0] := by
  rcases function_call_cases fn_name input with ⟨r, hin, hok⟩ | ⟨err, herr, -⟩
  · rw [hok] at h
    simp at h
    exact ⟨by rw [hin, h.2], h.1.symm⟩
  · rw [herr] at h; simp at h

theorem function_call_not_oof {fn_name : String} {input : List LexerToken} :
    function_call fn_name input ≠ .error .OutOfFuel := by
  rcases function_call_cases fn_name input with ⟨r, hin, hok⟩ | ⟨err, herr, hkind⟩
  · simp [hok]
  · rw [herr]
    rcases hkind with ⟨e, g, rfl⟩ | ⟨e, rfl⟩ <;> simp

theorem function_decleration_go_len
    {blockParse : List LexerToken → Except ParseError (List ParserToken × List LexerToken)}
    (hpb : ∀ {inp : List LexerToken} {res : List ParserToken} {rest : List LexerToken},
      blockParse inp = .ok (res, rest) → rest.length ≤ inp.length)
    {input : List LexerToken} {ts : List ParserToken} {rest : List LexerToken}
    (h : function_decleration_go blockParse input = .ok (ts, rest)) :
    rest.length < input.length := by
  cases input with
  | nil => simp [function_decleration_go] at h
  | cons a as =>
    cases as with
    | nil => simp [function_decleration_go] at h
    | cons tk1 r1 =>
      cases tk1 with
      | Identifier fn_name =>
        simp only [function_decleration_go, List.tail_cons] at h
        cases h1 : eat_expect (.Operator "(") r1 with
        | error err => rw [h1] at h; simp at h
        | ok p1 =>
          obtain ⟨t1, r2⟩ := p1
          rw [h1] at h
          dsimp only at h
          obtain ⟨hr1, -⟩ := eat_expect_ok h1
          cases h2 : fn_args_loop r2 with
          | error err => rw [h2] at h; simp at h
          | ok p2 =>
            obtain ⟨args, r3⟩ := p2
            rw [h2] at h
            dsimp only at h
            have hr2 := fn_args_loop_len _ h2
            cases h3 : eat_expect (.Symbol '{') r3 with
            | error err => rw [h3] at h; simp at h
            | ok p3 =>
              obtain ⟨t3, r4⟩ := p3
              rw [h3] at h
              dsimp only at h
              obtain ⟨hr3, -⟩ := eat_expect_ok h3
              cases h4 : blockParse r4 with
              | error err => rw [h4] at h; simp at h
              | ok p4 =>
                obtain ⟨body, r5⟩ := p4
                rw [h4] at h
                dsimp only at h
                have hr4 := hpb h4
                cases h5 : eat_expect (.Symbol '}') r5 with
                | error err => rw [h5] at h; simp at h
                | ok p5 =>
                  obtain ⟨t5, r6⟩ := p5
                  rw [h5] at h
                  dsimp only at h
                  obtain ⟨hr5, -⟩ := eat_expect_ok h5
                  simp at h
                  subst hr1 hr3 hr5
                  rw [← h.2]
                  simp at hr2 hr4 ⊢
                  omega
      | _ => simp [function_decleration_go] at h

theorem function_decleration_go_not_oof
    {blockParse : List LexerToken → Except ParseError (List ParserToken × List LexerToken)}
    {input : List LexerToken}
    (hpb : ∀ {inp : List LexerToken}, inp.length + 5 ≤ input.length →
      blockParse inp ≠ .error .OutOfFuel) :
    function_decleration_go blockParse input ≠ .error .OutOfFuel := by
  cases input with
  | nil => simp [function_decleration_go]
  | cons a as =>
    cases as with
    | nil => simp [function_decleration_go]
    | cons tk1 r1 =>
      cases tk1 with
      | Identifier fn_name =>
        simp only [function_decleration_go, List.tail_cons]
        cases h1 : eat_expect (.Operator "(") r1 with
        | error err =>
          dsimp only
          intro hcon
          simp at hcon
          rw [hcon] at h1
          exact eat_expect_not_oof h1
        | ok p1 =>
          obtain ⟨t1, r2⟩ := p1
          dsimp only
          obtain ⟨hr1, -⟩ := eat_expect_ok h1
          cases h2 : fn_args_loop r2 with
          | error err =>
            dsimp only
            intro hcon
            simp at hcon
            rw [hcon] at h2
            exact fn_args_loop_not_oof _ h2
          | ok p2 =>
            obtain ⟨args, r3⟩ := p2
            dsimp only
            have hr2 := fn_args_loop_len _ h2
            cases h3 : eat_expect (.Symbol '{') r3 with
            | error err =>
              dsimp only
              intro hcon
              simp at hcon
              rw [hcon] at h3
              exact eat_expect_not_oof h3
            | ok p3 =>
              obtain ⟨t3, r4⟩ := p3
              dsimp only
              obtain ⟨hr3, -⟩ := eat_expect_ok h3
              have hlen : r4.length + 5 ≤ (a :: .Identifier fn_name :: r1).length := by
                subst hr1 hr3
                simp at hr2 ⊢
                omega
              cases h4 : blockParse r4 with
              | error err =>
                dsimp only
                intro hcon
                simp at hcon
                rw [hcon] at h4
                exact hpb hlen h4
              | ok p4 =>
                obtain ⟨body, r5⟩ := p4
                dsimp only
                cases h5 : eat_expect (.Symbol '}') r5 with
                | error err =>
                  dsimp only
                  intro hcon
                  simp at hcon
                  rw [hcon] at h5
                  exact eat_expect_not_oof h5
                | ok p5 =>
                  obtain ⟨t5, r6⟩ := p5
                  simp
      | _ => simp [function_decleration_go]

/-- On success the dispatcher only ever consumes tokens: the remaining
stream is no longer than the input stream. -/
theorem parse_until_len :
    ∀ (fuel : Nat) {tr : Translator} {tk : LexerToken} {acc res : List ParserToken}
      {input rest : List LexerToken},
    parse_until tr fuel tk acc input = .ok (res, rest) → rest.length ≤ input.length := by
  intro fuel
  induction fuel with
  | zero => intro tr tk acc res input rest h; simp [parse_until] at h
  | succ fuel ih =>
    intro tr tk acc res input rest h
    cases input with
    | nil => simp [parse_until] at h
    | cons token rest0 =>
      rw [parse_until.eq_def] at h
      dsimp only at h
      by_cases htk : token = tk
      · rw [if_pos htk] at h
        simp at h
        rw [← h.2]
      · rw [if_neg htk] at h
        cases token with
        | Keyword kw =>
          dsimp only at h
          by_cases hlet : kw = "let"
          · rw [if_pos hlet] at h
            cases hv : variable_decleration tr (.Keyword kw :: rest0) with
            | error err => rw [hv] at h; simp at h
            | ok p =>
              obtain ⟨ts, r⟩ := p
              rw [hv] at h
              dsimp only at h
              have h1 := variable_decleration_len hv
              have h2 := ih h
              simp at h1 ⊢
              omega
          · rw [if_neg hlet] at h
            by_cases hfn : kw = "fn"
            · rw [if_pos hfn] at h
              cases hf : function_decleration_go
                  (fun i => parse_until tr fuel (.Symbol '}') [] i) (.Keyword kw :: rest0) with
              | error err => rw [hf] at h; simp at h
              | ok p =>
                obtain ⟨ts, r⟩ := p
                rw [hf] at h
                dsimp only at h
                have h1 := function_decleration_go_len (fun h' => ih h') hf
                have h2 := ih h
                simp at h1 ⊢
                omega
            · rw [if_neg hfn] at h; simp at h
        | Identifier fn_name =>
          dsimp only at h
          cases rest0 with
          | nil => simp at h
          | cons next rest1 =>
            dsimp only at h
            by_cases hop : next = .Operator "("
            · rw [if_pos hop] at h
              cases hc : function_call fn_name rest1 with
              | error err => rw [hc] at h; simp at h
              | ok p =>
                obtain ⟨ts, r2⟩ := p
                rw [hc] at h
                dsimp only at h
                obtain ⟨hr, -⟩ := function_call_ok hc
                have h2 := ih h
                rw [hr]
                simp at h2 ⊢
                omega
            · rw [if_neg hop] at h
              have h2 := ih h
              simp
              omega
        | Operator s =>
          dsimp only at h
          cases he : eat_expr [.Symbol ';'] (.Operator s :: rest0) with
          | error err => rw [he] at h; simp at h
          | ok p =>
            obtain ⟨e, r⟩ := p
            rw [he] at h
            simp at h
            obtain ⟨hpre, -, -⟩ := eat_expr_ok he
            rw [← h.2, hpre]
            simp
        | Symbol c =>
          dsimp only at h
          cases he : eat_expr [.Symbol ';'] (.Symbol c :: rest0) with
          | error err => rw [he] at h; simp at h
          | ok p =>
            obtain ⟨e, r⟩ := p
            rw [he] at h
            simp at h
            obtain ⟨hpre, -, -⟩ := eat_expr_ok he
            rw [← h.2, hpre]
            simp
        | Eof =>
          dsimp only at h
          cases he : eat_expr [.Symbol ';'] (.Eof :: rest0) with
          | error err => rw [he] at h; simp at h
          | ok p =>
            obtain ⟨e, r⟩ := p
            rw [he] at h
            simp at h
            obtain ⟨hpre, -, -⟩ := eat_expr_ok he
            rw [← h.2, hpre]
            simp

/-- With fuel exceeding the stream length the dispatcher never exhausts its
fuel: every loop iteration and every recursive block parse strictly consumes
tokens. -/
theorem parse_until_not_oof :
    ∀ (fuel : Nat) {tr : Translator} {tk : LexerToken} {acc : List ParserToken}
      {input : List LexerToken}, input.length < fuel →
    parse_until tr fuel tk acc input ≠ .error .OutOfFuel := by
  intro fuel
  induction fuel with
  | zero => intro tr tk acc input hlen; omega
  | succ fuel ih =>
    intro tr tk acc input hlen
    cases input with
    | nil => simp [parse_until]
    | cons token rest0 =>
      rw [parse_until.eq_def]
      dsimp only
      by_cases htk : token = tk
      · rw [if_pos htk]
        simp
      · rw [if_neg htk]
        simp only [List.length_cons] at hlen
        cases token with
        | Keyword kw =>
          dsimp only
          by_cases hlet : kw = "let"
          · rw [if_pos hlet]
            cases hv : variable_decleration tr (.Keyword kw :: rest0) with
            | error err =>
              dsimp only
              intro hcon
              simp at hcon
              rw [hcon] at hv
              exact variable_decleration_not_oof hv
            | ok p =>
              obtain ⟨ts, r⟩ := p
              dsimp only
              have h1 := variable_decleration_len hv
              simp at h1
              exact ih (by omega)
          · rw [if_neg hlet]
            by_cases hfn : kw = "fn"
            · rw [if_pos hfn]
              have hpb : ∀ {inp : List LexerToken},
                  inp.length + 5 ≤ (LexerToken.Keyword kw :: rest0).length →
                  parse_until tr fuel (.Symbol '}') [] inp ≠ .error .OutOfFuel := by
                intro inp hle
                simp at hle
                exact ih (by omega)
              cases hf : function_decleration_go
                  (fun i => parse_until tr fuel (.Symbol '}') [] i) (.Keyword kw :: rest0) with
              | error err =>
                dsimp only
                intro hcon
                simp at hcon
                rw [hcon] at hf
                exact function_decleration_go_not_oof (fun hle => hpb hle) hf
              | ok p =>
                obtain ⟨ts, r⟩ := p
                dsimp only
                have h1 := function_decleration_go_len
                  (fun h' => parse_until_len fuel h') hf
                simp at h1
                exact ih (by omega)
            · rw [if_neg hfn]
              simp
        | Identifier fn_name =>
          dsimp only
          cases rest0 with
          | nil => simp
          | cons next rest1 =>
            dsimp only
            by_cases hop : next = .Operator "("
            · rw [if_pos hop]
              cases hc : function_call fn_name rest1 with
              | error err =>
                dsimp only
                intro hcon
                simp at hcon
                rw [hcon] at hc
                exact function_call_not_oof hc
              | ok p =>
                obtain ⟨ts, r2⟩ := p
                dsimp only
                obtain ⟨hr, -⟩ := function_call_ok hc
                have : rest1.length = r2.length + 2 := by rw [hr]; simp
                simp at hlen
                exact ih (by omega)
            · rw [if_neg hop]
              simp at hlen
              exact ih (by omega)
        | Operator s =>
          dsimp only
          cases he : eat_expr [.Symbol ';'] (.Operator s :: rest0) with
          | error err =>
            dsimp only
            intro hcon
            simp at hcon
            rw [hcon] at he
            exact eat_expr_not_oof he
          | ok p => obtain ⟨e, r⟩ := p; simp
        | Symbol c =>
          dsimp only
          cases he : eat_expr [.Symbol ';'] (.Symbol c :: rest0) with
          | error err =>
            dsimp only
            intro hcon
            simp at hcon
            rw [hcon] at he
            exact eat_expr_not_oof he
          | ok p => obtain ⟨e, r⟩ := p; simp
        | Eof =>
          dsimp only
          cases he : eat_expr [.Symbol ';'] (.Eof :: rest0) with
          | error err =>
            dsimp only
            intro hcon
            simp at hcon
            rw [hcon] at he
            exact eat_expr_not_oof he
          | ok p => obtain ⟨e, r⟩ := p; simp

/-! ### Concrete translators used by witnesses -/

/-- Trivial concrete instance of the external translator: no output. -/
def trEmpty : Translator := fun _ => []

/-- Concrete instance of the external translator that emits a single `Push`
for the bare numeric literal `2` (spec §8's example translator).  The lexer
is external and the spec's token set has no literal variant, so the token
form of the literal `2` is represented here by `Identifier "2"`. -/
def trNum : Translator := fun ts => if ts = [.Identifier "2"] then [.Push 2] else []

/-! ### Claims -/

/-- C1: when the statement dispatcher peeks a token that is neither the
terminator, nor a keyword, nor an identifier, it extracts raw tokens up to a
`;` symbol, translates them, and returns only the translated instructions:
the instructions `acc` accumulated from earlier statements of the block are
dropped from the result, and no further statements of the block are parsed
(the stream position returned is the extractor's, still at the `;`). -/
theorem C1_bare_expression_ends_block (tr : Translator) (fuel : Nat)
    (tk token : LexerToken) (acc : List ParserToken) (rest0 : List LexerToken)
    (htk : token ≠ tk) (hkw : ∀ s, token ≠ .Keyword s)
    (hid : ∀ s, token ≠ .Identifier s) :
    parse_until tr (fuel + 1) tk acc (token :: rest0) =
      (eat_expr [.Symbol ';'] (token :: rest0)).map (fun p => (tr p.1, p.2)) := by
  rw [parse_until.eq_def]
  dsimp only
  rw [if_neg htk]
  cases token with
  | Keyword s => exact absurd rfl (hkw s)
  | Identifier s => exact absurd rfl (hid s)
  | Operator s =>
    dsimp only
    cases he : eat_expr [.Symbol ';'] (.Operator s :: rest0) with
    | error err => simp [Except.map]
    | ok p => obtain ⟨e, r⟩ := p; simp [Except.map]
  | Symbol c =>
    dsimp only
    cases he : eat_expr [.Symbol ';'] (.Symbol c :: rest0) with
    | error err => simp [Except.map]
    | ok p => obtain ⟨e, r⟩ := p; simp [Except.map]
  | Eof =>
    dsimp only
    cases he : eat_expr [.Symbol ';'] (.Eof :: rest0) with
    | error err => simp [Except.map]
    | ok p => obtain ⟨e, r⟩ := p; simp [Except.map]

/-- C1 witness: a bare-expression token in statement position drops the
already-accumulated `Ret` instruction from the result. -/
theorem C1_bare_expression_ends_block_witness :
    parse_until trEmpty 1 .Eof [.Ret] [.Operator "+", .Symbol ';'] =
      .ok ([], [.Symbol ';']) := by
  rw [C1_bare_expression_ends_block trEmpty 0 .Eof (.Operator "+") [.Ret]
    [.Symbol ';'] (by decide) (fun s => by simp) (fun s => by simp)]
  rfl

/-- C2 counterexample: the token form of `fn f(a,) { }` contains a `,` after
a parameter name that is immediately followed by `)` (a trailing comma), yet
the function declaration handler parses it successfully instead of failing
with a syntax error: the parameter loop re-enters after the comma and its
`)` branch ends the list. -/
theorem C2_counterexample_trailing_comma_accepted :
    function_decleration trEmpty 1
      [.Keyword "fn", .Identifier "f", .Operator "(", .Identifier "a",
        .Symbol ',', .Operator ")", .Symbol '{', .Symbol '}'] =
      .ok ([.DeclareFunction "f" []], []) := rfl

/-- C2 amended: the parameter loop accepts parameter lists both without and
with a trailing comma — the comma-separated shape
`(Identifier ("," Identifier)*)? ")"` is accepted, and whenever a `,` after
a parameter name is immediately followed by `)`, the handler likewise parses
successfully, returning the same names. -/
theorem C2_amended_parameter_lists :
    (∀ (args : List String) (rest : List LexerToken),
      fn_args_loop (paramToks args ++ .Operator ")" :: rest) = .ok (args, rest)) ∧
    (∀ (args : List String) (rest : List LexerToken),
      fn_args_loop (paramToksTC args ++ .Operator ")" :: rest) = .ok (args, rest)) :=
  ⟨fn_args_loop_paramToks, fn_args_loop_paramToksTC⟩

/-- C3: for every terminator set and every stream containing no element of
it, the expression extractor fails with the end-of-input error instead of
returning a token sequence. -/
theorem C3_eat_expr_eof (terminator S : List LexerToken)
    (h : ∀ t ∈ S, t ∉ terminator) :
    eat_expr terminator S = .error (.UnexpectedEofExpecting terminator) :=
  eat_expr_eof h

/-- C3 witness: a stream with no `;` exhausts into the end-of-input error. -/
theorem C3_eat_expr_eof_witness :
    eat_expr [.Symbol ';'] [.Operator "+", .Eof] =
      .error (.UnexpectedEofExpecting [.Symbol ';']) :=
  C3_eat_expr_eof [.Symbol ';'] [.Operator "+", .Eof] (by decide)

/-- C4: whenever the expression extractor returns successfully, none of the
returned tokens is a terminator, the returned tokens are exactly the
consumed prefix of the stream in their original order, and the next
unconsumed token is a terminator (left unconsumed at the head of the
remaining stream). -/
theorem C4_eat_expr_sound (terminator input e rest : List LexerToken)
    (h : eat_expr terminator input = .ok (e, rest)) :
    (∀ t ∈ e, t ∉ terminator) ∧ input = e ++ rest ∧
      ∃ t ts, rest = t :: ts ∧ t ∈ terminator :=
  ⟨(eat_expr_ok h).2.1, (eat_expr_ok h).1, (eat_expr_ok h).2.2⟩

/-- C4 witness: extracting from `a ; …` returns `[a]` and leaves the `;`
unconsumed at the head of the remainder. -/
theorem C4_eat_expr_sound_witness :
    (∀ t ∈ [LexerToken.Identifier "a"], t ∉ [LexerToken.Symbol ';']) ∧
      [LexerToken.Identifier "a", LexerToken.Symbol ';'] =
        [LexerToken.Identifier "a"] ++ [LexerToken.Symbol ';'] ∧
      ∃ t ts, [LexerToken.Symbol ';'] = t :: ts ∧ t ∈ [LexerToken.Symbol ';'] :=
  C4_eat_expr_sound [.Symbol ';'] [.Identifier "a", .Symbol ';']
    [.Identifier "a"] [.Symbol ';'] rfl

/-- C5: for every well-formed variable declaration `let Identifier = Expr ;`
(the expression tokens containing no `;`), the handler returns the
translator's output for the expression tokens followed by exactly one
`DeclareVariable(identifier)` instruction, and consumes the trailing `;`. -/
theorem C5_variable_decleration (tr : Translator) (x : String)
    (expr rest : List LexerToken) (hfree : ∀ t ∈ expr, t ≠ .Symbol ';') :
    variable_decleration tr
        (.Keyword "let" :: .Identifier x :: .Symbol '=' :: (expr ++ .Symbol ';' :: rest)) =
      .ok (tr expr ++ [.DeclareVariable x], rest) :=
  variable_decleration_eq tr x expr rest hfree

/-- C5 witness: with a translator that emits a single `Push` for the numeric
literal, the token form of `let x = 2;` parses to
`[Push(2), DeclareVariable("x")]`. -/
theorem C5_variable_decleration_witness :
    variable_decleration trNum
        [.Keyword "let", .Identifier "x", .Symbol '=', .Identifier "2", .Symbol ';'] =
      .ok ([.Push 2, .DeclareVariable "x"], []) :=
  C5_variable_decleration trNum "x" [.Identifier "2"] [] (by decide)

/-- C6: for every well-formed function declaration — any parameter-name list
`args`, any body whose recursive block parse with terminator `}` succeeds —
the handler's output is exactly one `DeclareFunction(name, body)` whose body
is the dispatcher's result; the parameter names `args` do not occur in the
conclusion, so the emitted instruction is independent of them. -/
theorem C6_function_decleration (tr : Translator) (fuel : Nat) (name : String)
    (args : List String) (r4 : List LexerToken) (body : List ParserToken)
    (rest2 : List LexerToken)
    (hbody : parse_until tr fuel (.Symbol '}') [] r4 = .ok (body, .Symbol '}' :: rest2)) :
    function_decleration tr fuel
        (.Keyword "fn" :: .Identifier name :: .Operator "(" ::
          (paramToks args ++ .Operator ")" :: .Symbol '{' :: r4)) =
      .ok ([.DeclareFunction name body], rest2) := by
  simp only [function_decleration, function_decleration_go, List.tail_cons]
  rw [show eat_expect (.Operator "(")
      (.Operator "(" :: (paramToks args ++ .Operator ")" :: .Symbol '{' :: r4)) =
      .ok (.Operator "(", paramToks args ++ .Operator ")" :: .Symbol '{' :: r4)
    from by simp [eat_expect]]
  dsimp only
  rw [show (paramToks args ++ .Operator ")" :: .Symbol '{' :: r4) =
      (paramToks args ++ .Operator ")" :: (.Symbol '{' :: r4)) from by simp]
  rw [fn_args_loop_paramToks]
  dsimp only
  rw [show eat_expect (.Symbol '{') (.Symbol '{' :: r4) = .ok (.Symbol '{', r4)
    from by simp [eat_expect]]
  dsimp only
  rw [hbody]
  dsimp only
  rw [show eat_expect (.Symbol '}') (.Symbol '}' :: rest2) = .ok (.Symbol '}', rest2)
    from by simp [eat_expect]]

/-- C6 witness: the token form of `fn foo() { }` parses to
`[DeclareFunction("foo", [])]`. -/
theorem C6_function_decleration_witness :
    function_decleration trEmpty 1
        [.Keyword "fn", .Identifier "foo", .Operator "(", .Operator ")",
          .Symbol '{', .Symbol '}'] =
      .ok ([.DeclareFunction "foo" []], []) :=
  C6_function_decleration trEmpty 1 "foo" [] [.Symbol '}'] [] [] rfl

/-- C7: the call handler (invoked after the dispatcher consumed the
identifier and the `(`) requires exactly `)` then `;` — failing with an
unexpected-token or end-of-input error on any other input — and returns
exactly `[Call(name, 0)]`; and the token form of `foo();` at top level
parses to `[Call("foo", 0)]`. -/
theorem C7_function_call :
    (∀ (fn_name : String) (input : List LexerToken),
      (∃ rest, input = .Operator ")" :: .Symbol ';' :: rest ∧
        function_call fn_name input = .ok ([.Call fn_name 0], rest)) ∨
      (∃ err, function_call fn_name input = .error err ∧
        ((∃ e g, err = .UnexpectedToken e g) ∨ ∃ e, err = .UnexpectedEofExpected e))) ∧
    parse trEmpty [.Identifier "foo", .Operator "(", .Operator ")", .Symbol ';', .Eof] =
      .ok [.Call "foo" 0] :=
  ⟨function_call_cases, rfl⟩

/-- C8: when the dispatcher peeks an identifier that is not the terminator,
it consumes the identifier and the token after it; if that second token is
not the `(` operator, the iteration contributes no instructions (`acc` is
unchanged), the two consumed tokens are discarded, and the loop continues
with the following tokens. -/
theorem C8_identifier_not_call (tr : Translator) (fuel : Nat) (tk : LexerToken)
    (acc : List ParserToken) (x : String) (next : LexerToken) (rest : List LexerToken)
    (htk : LexerToken.Identifier x ≠ tk) (hop : next ≠ .Operator "(") :
    parse_until tr (fuel + 1) tk acc (.Identifier x :: next :: rest) =
      parse_until tr fuel tk acc rest := by
  rw [parse_until.eq_def]
  dsimp only
  rw [if_neg htk]
  simp only [if_neg hop]

/-- C8 witness: an identifier followed by a non-`(` token leaves the
accumulated instructions unchanged and continues after the two tokens. -/
theorem C8_identifier_not_call_witness :
    parse_until trEmpty 2 .Eof [.Ret] [.Identifier "a", .Symbol '?', .Eof] =
      parse_until trEmpty 1 .Eof [.Ret] [.Eof] :=
  C8_identifier_not_call trEmpty 1 .Eof [.Ret] "a" (.Symbol '?') [.Eof]
    (by decide) (by decide)

/-- C9: the statement dispatcher terminates on every finite token stream for
every terminator: with fuel exceeding the stream length the fuel is never
exhausted, because every continuing iteration (and every handler it invokes)
consumes at least one token.  The external translator is a total function in
this embedding. -/
theorem C9_parse_until_terminates (tr : Translator) (fuel : Nat) (tk : LexerToken)
    (acc : List ParserToken) (input : List LexerToken) (h : input.length < fuel) :
    parse_until tr fuel tk acc input ≠ .error .OutOfFuel :=
  parse_until_not_oof fuel h

/-- C9 witness: `length + 1` fuel suffices on a concrete stream. -/
theorem C9_parse_until_terminates_witness :
    parse_until trEmpty 3 .Eof [] [.Identifier "x", .Eof] ≠ .error .OutOfFuel :=
  C9_parse_until_terminates trEmpty 3 .Eof [] [.Identifier "x", .Eof] (by decide)

/-- When the dispatcher (with terminator `Eof`) reaches a state where the
remaining stream is exactly `[Identifier x, Eof]`, the identifier branch
consumes the `Eof` marker itself as the following token and the next peek
finds the stream exhausted, failing with the end-of-input error. -/
theorem parse_until_trailing_identifier (tr : Translator) (x : String)
    (acc : List ParserToken) (fuel : Nat) :
    parse_until tr (fuel + 2) .Eof acc [.Identifier x, .Eof] =
      .error .UnexpectedEof := by
  rw [parse_until.eq_def]
  dsimp only
  rw [if_neg (by simp : LexerToken.Identifier x ≠ .Eof)]
  simp only [if_neg (by simp : LexerToken.Eof ≠ .Operator "(")]
  rw [parse_until.eq_def]

/-- C10 counterexample: the claim quantifies over every stream ending
`[…, Identifier x, Eof]`, but on `[Symbol ';', Identifier "x", Eof]` —
which has that shape, the identifier being last before the marker and not
followed by `(` — the top-level parse returns successfully: the leading `;`
enters the bare-expression branch, whose extraction stops at once and whose
early return never reaches the trailing identifier. -/
theorem C10_counterexample_successful_parse :
    parse trEmpty [.Symbol ';', .Identifier "x", .Eof] = .ok [] := rfl

/-- C10 amended: whenever the dispatcher actually reaches the trailing
identifier — the remaining stream at some iteration being exactly
`[Identifier x, Eof]`, regardless of what was accumulated before — the parse
fails with an end-of-input error rather than returning successfully: the
identifier branch consumes the end-of-input marker as the following token,
so the next peek finds the stream exhausted.  In particular the whole-stream
parse of `[Identifier x, Eof]` fails that way. -/
theorem C10_amended_trailing_identifier :
    (∀ (tr : Translator) (x : String) (acc : List ParserToken) (fuel : Nat),
      parse_until tr (fuel + 2) .Eof acc [.Identifier x, .Eof] =
        .error .UnexpectedEof) ∧
    (∀ (tr : Translator) (x : String),
      parse tr [.Identifier x, .Eof] = .error .UnexpectedEof) := by
  refine ⟨parse_until_trailing_identifier, fun tr x => ?_⟩
  have h := parse_until_trailing_identifier tr x [] 1
  norm_num at h
  simp [parse, h, Except.map]
